import Mathlib

/-!
Shallow embedding of the lotto-server payout engine and wallet ledger.

Monetary amounts are modelled as exact rationals; `Number((x).toFixed(2))`
becomes `round2` (round half away from zero at two decimals, which agrees
with round half up on the nonnegative amounts arising here).

Sources embedded:
- the bidding service revision whose `announceResult` collects failed
  credits before persisting the draw (guards, ceiling computation, the
  LD/JP dummy-unit formulas, the credit loop, persistence);
- `wallet.service.ts` (all public wallet-mutating operations as a step
  function on a wallet-plus-ledger state).

Randomness (the display unit-value `p` drawn in `[20, 50]`) is passed as an
explicit parameter.  The cosmetic unit distribution is display-only and
never read by any financial computation, so it is omitted from the state.
-/

/-- Rounding to two decimals, as performed by `Number(x.toFixed(2))`. -/
def round2 (q : ℚ) : ℚ := ((round (q * 100) : ℤ) : ℚ) / 100

/-- Mirrors `normalizePct`: a raw value above 1 is interpreted as a
percentage and divided by 100, otherwise it is already a fraction. -/
def normalizePct (raw : ℚ) : ℚ := if 1 < raw then raw / 100 else raw

/-- The profit ceiling `M = round2(collected - round2(collected * pct))`
computed by `announceResult` before branching on the slot type. -/
def computeCeiling (collected pct : ℚ) : ℚ :=
  round2 (collected - round2 (collected * pct))

/-- Result of the loss-prevention computation inside `announceResult`:
dummy units, rounded unit prize, rounded payout to real winners, and the
`scaled` flag set on the `M <= 0` branch. -/
structure EngineResult where
  dummyUnits : ℤ
  unitPrize : ℚ
  payoutToReal : ℚ
  scaled : Bool
deriving DecidableEq

/-- The dummy-unit / payout computation shared by the LD and JP branches of
`announceResult`.  `W` is the configured full prize, `M` the ceiling, `R`
the real winner unit count, and `p` the randomly drawn display unit-value
used when `R = 0`. -/
def announceEngine (W M : ℚ) (R p : ℕ) : EngineResult :=
  if 0 < R then
    if M ≤ 0 then
      ⟨0, 0, 0, true⟩
    else
      ⟨max 0 ⌈W * (R : ℚ) / M - (R : ℚ)⌉,
       round2 (W / ((R : ℚ) + ((max 0 ⌈W * (R : ℚ) / M - (R : ℚ)⌉ : ℤ) : ℚ))),
       round2 (W / ((R : ℚ) + ((max 0 ⌈W * (R : ℚ) / M - (R : ℚ)⌉ : ℤ) : ℚ)) * (R : ℚ)),
       false⟩
  else
    ⟨⌈W / (p : ℚ)⌉,
     round2 (W / ((⌈W / (p : ℚ)⌉ : ℤ) : ℚ)),
     0,
     false⟩

/-- A wallet row: signed total balance and the non-negative reserved
winnings earmarked for winners. -/
structure Wallet where
  totalBalance : ℚ
  reservedWinning : ℚ
deriving DecidableEq

/-- Mirrors `computeAvailable` of the wallet service. -/
def computeAvailable (w : Wallet) : ℚ := w.totalBalance - w.reservedWinning

/-- An LD bid as read back by `announceResult`: placing agent, chosen
number, unit count and the stake amount stored at creation. -/
structure LDBid where
  userId : ℕ
  number : ℕ
  count : ℕ
  amount : ℚ
deriving DecidableEq

/-- The slice of `AppSettings` that `announceResult` reads for an LD slot. -/
structure EngineSettings where
  minProfitPct : ℚ
  winningPrizeLD : ℚ
deriving DecidableEq

inductive SlotStatus
  | OPEN
  | CLOSED
  | COMPLETED
deriving DecidableEq

/-- A persisted draw result row (audit meta omitted). -/
structure DrawResult where
  winner : ℕ
  dummyUnits : ℤ
  totalUnits : ℤ
  perUnitPayout : ℚ
  payoutTotal : ℚ
deriving DecidableEq

/-- Reasons a single winner credit can fail during announcement. -/
inductive CreditFailReason
  | payoutRoundedToZero
  | walletNotFound
  | amountNotPositive
deriving DecidableEq

structure FailedCredit where
  userId : ℕ
  reason : CreditFailReason
deriving DecidableEq

/-- Wallet store keyed by user id. -/
def WalletMap := List (ℕ × Wallet)

instance : DecidableEq WalletMap := by
  unfold WalletMap
  infer_instance

def lookupWallet (ws : WalletMap) (uid : ℕ) : Option Wallet :=
  (List.find? (fun kv => kv.1 == uid) ws).map (fun kv => kv.2)

def updateWallet (ws : WalletMap) (uid : ℕ) (w : Wallet) : WalletMap :=
  List.map (fun kv => if kv.1 == uid then (uid, w) else kv) ws

/-- `creditWinning` restricted to its effect on the wallet store: rejects a
non-positive amount, fails when the wallet does not exist, otherwise raises
`reservedWinning` only. -/
def creditWinningW (ws : WalletMap) (uid : ℕ) (amount : ℚ) :
    Except CreditFailReason WalletMap :=
  if amount ≤ 0 then .error .amountNotPositive
  else
    match lookupWallet ws uid with
    | none => .error .walletNotFound
    | some w => .ok (updateWallet ws uid ⟨w.totalBalance, w.reservedWinning + amount⟩)

/-- The winner-credit loop of `announceResult`: every winning bid is
attempted, each per-winner payout is the raw unit prize times the bid count
rounded to two decimals, and failures are collected rather than aborting
the loop. -/
def creditAll (unitPrizeRaw : ℚ) (ws : WalletMap) :
    List LDBid → WalletMap × List FailedCredit
  | [] => (ws, [])
  | b :: rest =>
      if round2 (unitPrizeRaw * (b.count : ℚ)) ≤ 0 then
        let r := creditAll unitPrizeRaw ws rest
        (r.1, ⟨b.userId, .payoutRoundedToZero⟩ :: r.2)
      else
        match creditWinningW ws b.userId (round2 (unitPrizeRaw * (b.count : ℚ))) with
        | .ok ws1 =>
            creditAll unitPrizeRaw ws1 rest
        | .error e =>
            let r := creditAll unitPrizeRaw ws rest
            (r.1, ⟨b.userId, e⟩ :: r.2)

/-- Total amount collected for the slot, as aggregated over its bids. -/
def ldCollected (bids : List LDBid) : ℚ := (bids.map (fun b => b.amount)).sum

/-- The ceiling `maxAllowedPayout` computed by `announceResult`. -/
def ldM (settings : EngineSettings) (bids : List LDBid) : ℚ :=
  computeCeiling (ldCollected bids) (normalizePct settings.minProfitPct)

def ldWinningBids (bids : List LDBid) (winningNumber : ℕ) : List LDBid :=
  bids.filter (fun b => b.number == winningNumber)

/-- Real winner units on the winning number. -/
def ldR (bids : List LDBid) (winningNumber : ℕ) : ℕ :=
  ((ldWinningBids bids winningNumber).map (fun b => b.count)).sum

/-- The raw (unrounded) unit prize used for per-winner payouts. -/
def ldUnitPrizeRaw (W : ℚ) (R : ℕ) (D : ℤ) : ℚ :=
  if 0 < (R : ℤ) + D then W / ((R : ℚ) + (D : ℚ)) else 0

/-- The credit phase of `announceResult`: runs only when there are real
winners and a positive rounded payout; returns the updated wallet store and
the collected failure list. -/
def announceCredits (settings : EngineSettings) (bids : List LDBid)
    (winningNumber p : ℕ) (ws : WalletMap) : WalletMap × List FailedCredit :=
  let eng := announceEngine settings.winningPrizeLD (ldM settings bids)
      (ldR bids winningNumber) p
  if 0 < ldR bids winningNumber ∧ 0 < eng.payoutToReal then
    creditAll (ldUnitPrizeRaw settings.winningPrizeLD (ldR bids winningNumber) eng.dummyUnits)
      ws (ldWinningBids bids winningNumber)
  else (ws, [])

/-- Slot-scoped system state seen by the announcement orchestrator. -/
structure SlotState where
  status : SlotStatus
  windowClosed : Bool
  wallets : WalletMap
  draws : List DrawResult
deriving DecidableEq

inductive AnnErr
  | slotCompleted
  | windowNotClosed
  | creditsFailed (fs : List FailedCredit)
deriving DecidableEq

/-- `announceResult` for an LD slot: status guards, ceiling computation,
loss-prevention engine, credit-or-abort, and persistence of the draw result
together with the `COMPLETED` transition only after all credits succeeded. -/
def announceResultLD (settings : EngineSettings) (bids : List LDBid)
    (winningNumber p : ℕ) (st : SlotState) :
    SlotState × Except AnnErr DrawResult :=
  if st.status = .COMPLETED then (st, .error .slotCompleted)
  else if st.status = .OPEN ∧ st.windowClosed = false then (st, .error .windowNotClosed)
  else
    let eng := announceEngine settings.winningPrizeLD (ldM settings bids)
        (ldR bids winningNumber) p
    let wf := announceCredits settings bids winningNumber p st.wallets
    if wf.2 = [] then
      ({ st with
          status := .COMPLETED
          wallets := wf.1
          draws := st.draws ++
            [⟨winningNumber, eng.dummyUnits, (ldR bids winningNumber : ℤ) + eng.dummyUnits,
              eng.unitPrize, eng.payoutToReal⟩] },
        .ok ⟨winningNumber, eng.dummyUnits, (ldR bids winningNumber : ℤ) + eng.dummyUnits,
              eng.unitPrize, eng.payoutToReal⟩)
    else
      ({ st with wallets := wf.1 }, .error (.creditsFailed wf.2))

/-- Evaluation helper: `round2 q` equals `z / 100` once the defining floor
inequalities of rounding half up are checked. -/
lemma round2_eval (q : ℚ) (z : ℤ) (h1 : (z : ℚ) ≤ q * 100 + 1 / 2)
    (h2 : q * 100 + 1 / 2 < z + 1) : round2 q = (z : ℚ) / 100 := by
  unfold round2
  rw [round_eq, Int.floor_eq_iff.mpr ⟨h1, h2⟩]

/-- Evaluation helper for integer ceilings of rationals. -/
lemma ceil_eval (q : ℚ) (z : ℤ) (h1 : (z : ℚ) - 1 < q) (h2 : q ≤ z) :
    ⌈q⌉ = z := Int.ceil_eq_iff.mpr ⟨h1, h2⟩ -- motive irrelevant

inductive TxType
  | BID_CREDIT
  | BID_DEBIT
  | COMMISSION_CREDIT
  | COMMISSION_SETTLEMENT
  | WIN_CREDIT
  | WIN_SETTLEMENT_ADMIN_TO_AGENT
  | WIN_SETTLEMENT_AGENT_TO_USER
  | WITHDRAW
deriving DecidableEq

/-- Approval status kept in the meta of deposit-request ledger rows. -/
inductive DepStatus
  | PENDING
  | APPROVED
  | DECLINED
deriving DecidableEq

/-- A ledger entry: type, signed amount, balance snapshot and, for deposit
requests, the approval status living in the meta blob. -/
structure WalletTx where
  txType : TxType
  amount : ℚ
  balanceAfter : ℚ
  status : Option DepStatus
deriving DecidableEq

/-- One user's wallet (absent until lazily created) plus its append-only
ledger. -/
structure LedgerState where
  wallet : Option Wallet
  ledger : List WalletTx
deriving DecidableEq

inductive WalletErr
  | amountNotPositive
  | walletNotFound
  | negativeLimitExceeded
  | insufficientAvailable
  | insufficientReserve
  | depositTxNotFound
  | notADepositRequest
deriving DecidableEq

/-- The public wallet-mutating operations of the wallet service, for one
user's wallet.  `approveDeposit` addresses the targeted deposit row by its
ledger index. -/
inductive WalletOp
  | requestBidDeposit (amount : ℚ)
  | approveDeposit (idx : ℕ) (approve : Bool)
  | debitForBid (amount : ℚ)
  | creditCommission (amount : ℚ)
  | creditWinning (amount : ℚ)
  | settleCommissionByAdmin (amount : ℚ)
  | winningSettlementToAgent (amount : ℚ)
  | winningSettlementToUser (amount : ℚ)
  | adminProcessWithdraw (amount : ℚ)
deriving DecidableEq

/-- One atomic wallet-service operation: returns the post state and the
error, if any; on error the state is returned unchanged, mirroring the
transaction rollback. -/
def stepWallet (negLimit : ℚ) (s : LedgerState) : WalletOp → LedgerState × Option WalletErr
  | .requestBidDeposit a =>
      if a ≤ 0 then (s, some .amountNotPositive)
      else
        let w := s.wallet.getD ⟨0, 0⟩
        (⟨some w, s.ledger ++ [⟨.BID_CREDIT, a, w.totalBalance, some .PENDING⟩]⟩, none)
  | .approveDeposit idx approve =>
      match s.ledger.get? idx with
      | none => (s, some .depositTxNotFound)
      | some tx =>
          if tx.txType ≠ .BID_CREDIT then (s, some .notADepositRequest)
          else if approve = false then
            (⟨s.wallet, s.ledger.set idx { tx with status := some .DECLINED }⟩, none)
          else
            match s.wallet with
            | none => (s, some .walletNotFound)
            | some w =>
                (⟨some ⟨w.totalBalance + tx.amount, w.reservedWinning⟩,
                  s.ledger.set idx
                    { tx with balanceAfter := w.totalBalance + tx.amount,
                              status := some .APPROVED }⟩, none)
  | .debitForBid a =>
      if a ≤ 0 then (s, some .amountNotPositive)
      else
        match s.wallet with
        | none => (s, some .walletNotFound)
        | some w =>
            if computeAvailable w - a < -negLimit then (s, some .negativeLimitExceeded)
            else
              (⟨some ⟨w.totalBalance - a, w.reservedWinning⟩,
                s.ledger ++ [⟨.BID_DEBIT, -a, w.totalBalance - a, none⟩]⟩, none)
  | .creditCommission a =>
      if a ≤ 0 then (s, some .amountNotPositive)
      else
        let w := s.wallet.getD ⟨0, 0⟩
        (⟨some ⟨w.totalBalance + a, w.reservedWinning⟩,
          s.ledger ++ [⟨.COMMISSION_CREDIT, a, w.totalBalance + a, none⟩]⟩, none)
  | .creditWinning a =>
      if a ≤ 0 then (s, some .amountNotPositive)
      else
        match s.wallet with
        | none => (s, some .walletNotFound)
        | some w =>
            (⟨some ⟨w.totalBalance, w.reservedWinning + a⟩,
              s.ledger ++ [⟨.WIN_CREDIT, a, w.totalBalance, none⟩]⟩, none)
  | .settleCommissionByAdmin a =>
      if a ≤ 0 then (s, some .amountNotPositive)
      else
        match s.wallet with
        | none => (s, some .walletNotFound)
        | some w =>
            if computeAvailable w < a then (s, some .insufficientAvailable)
            else
              (⟨some ⟨w.totalBalance - a, w.reservedWinning⟩,
                s.ledger ++ [⟨.COMMISSION_SETTLEMENT, -a, w.totalBalance - a, none⟩]⟩, none)
  | .winningSettlementToAgent a =>
      if a ≤ 0 then (s, some .amountNotPositive)
      else
        match s.wallet with
        | none => (s, some .walletNotFound)
        | some w =>
            (⟨some ⟨w.totalBalance + a, w.reservedWinning⟩,
              s.ledger ++ [⟨.WIN_SETTLEMENT_ADMIN_TO_AGENT, a, w.totalBalance + a, none⟩]⟩, none)
  | .winningSettlementToUser a =>
      if a ≤ 0 then (s, some .amountNotPositive)
      else
        match s.wallet with
        | none => (s, some .walletNotFound)
        | some w =>
            if w.reservedWinning < a then (s, some .insufficientReserve)
            else
              (⟨some ⟨w.totalBalance - a, w.reservedWinning - a⟩,
                s.ledger ++ [⟨.WIN_SETTLEMENT_AGENT_TO_USER, -a, w.totalBalance - a, none⟩]⟩, none)
  | .adminProcessWithdraw a =>
      if a ≤ 0 then (s, some .amountNotPositive)
      else
        match s.wallet with
        | none => (s, some .walletNotFound)
        | some w =>
            if computeAvailable w < a then (s, some .insufficientAvailable)
            else
              (⟨some ⟨w.totalBalance - a, w.reservedWinning⟩,
                s.ledger ++ [⟨.WITHDRAW, -a, w.totalBalance - a, none⟩]⟩, none)

/-- Run a sequence of wallet-ledger operations from a state. -/
def runOps (negLimit : ℚ) (s : LedgerState) : List WalletOp → LedgerState
  | [] => s
  | op :: rest => runOps negLimit (stepWallet negLimit s op).1 rest

/-- The empty initial state: no wallet yet, empty ledger. -/
def initLedger : LedgerState := ⟨none, []⟩

/-- Available balance of a state; 0 when no wallet exists yet. -/
def availableOf (s : LedgerState) : ℚ :=
  match s.wallet with
  | none => 0
  | some w => computeAvailable w

/-- Total balance of a state; 0 when no wallet exists yet. -/
def totalOf (s : LedgerState) : ℚ :=
  match s.wallet with
  | none => 0
  | some w => w.totalBalance

/-- Plain sum of the signed amounts of all ledger entries. -/
def ledgerSum (s : LedgerState) : ℚ := (s.ledger.map (fun tx => tx.amount)).sum

/-- Effective balance contribution of one ledger entry: reservation rows
(WIN_CREDIT) never touch the total balance, and deposit-request rows count
only once APPROVED. -/
def effAmount (tx : WalletTx) : ℚ :=
  if tx.txType = .WIN_CREDIT then 0
  else if tx.txType = .BID_CREDIT ∧ tx.status ≠ some .APPROVED then 0
  else tx.amount

/-- Sum of effective ledger amounts. -/
def effSum (s : LedgerState) : ℚ := (s.ledger.map effAmount).sum

def isCreditWinningOp : WalletOp → Bool
  | .creditWinning _ => true
  | _ => false

/-- A deposit-approval call is admissible when it does not target a row
that is already APPROVED (re-approving applies the amount twice, and the
wallet service performs no status check of its own). -/
def approvalOk (s : LedgerState) : WalletOp → Prop
  | .approveDeposit idx _ =>
      ∀ tx, s.ledger.get? idx = some tx → tx.status ≠ some .APPROVED
  | _ => True

/-- States reachable from the initial state by wallet-service calls that
never re-target an already APPROVED deposit row. -/
inductive ReachOk (negLimit : ℚ) : LedgerState → Prop
  | init : ReachOk negLimit initLedger
  | step (s : LedgerState) (op : WalletOp) : ReachOk negLimit s → approvalOk s op →
      ReachOk negLimit (stepWallet negLimit s op).1

/-- Rounding to two decimals exceeds the argument by at most half a cent. -/
lemma round2_le_add_half_cent (q : ℚ) : round2 q ≤ q + 1 / 200 := by
  have h : ((round (q * 100) : ℤ) : ℚ) ≤ q * 100 + 1 / 2 := by
    have habs := abs_sub_round (q * 100)
    have := abs_le.mp habs
    linarith [this.1, this.2]
  unfold round2
  rw [div_le_iff₀ (by norm_num : (0 : ℚ) < 100)]
  linarith

/-- The raw payout before rounding never exceeds the ceiling: the chosen
dummy count makes the denominator at least `W * R / M`. -/
lemma raw_payout_le_ceiling (W M : ℚ) (R : ℕ) (hR : 0 < R) (hM : 0 < M) (hW : 0 ≤ W) :
    W / ((R : ℚ) + ((max 0 ⌈W * (R : ℚ) / M - (R : ℚ)⌉ : ℤ) : ℚ)) * (R : ℚ) ≤ M := by
  have hRQ : (0 : ℚ) < (R : ℚ) := by exact_mod_cast hR
  have hD0 : (0 : ℚ) ≤ ((max 0 ⌈W * (R : ℚ) / M - (R : ℚ)⌉ : ℤ) : ℚ) := by
    exact_mod_cast le_max_left 0 ⌈W * (R : ℚ) / M - (R : ℚ)⌉
  have hDge : W * (R : ℚ) / M - (R : ℚ) ≤ ((max 0 ⌈W * (R : ℚ) / M - (R : ℚ)⌉ : ℤ) : ℚ) := by
    have h1 : W * (R : ℚ) / M - (R : ℚ) ≤ ((⌈W * (R : ℚ) / M - (R : ℚ)⌉ : ℤ) : ℚ) :=
      Int.le_ceil _
    have h2 : ((⌈W * (R : ℚ) / M - (R : ℚ)⌉ : ℤ) : ℚ) ≤
        ((max 0 ⌈W * (R : ℚ) / M - (R : ℚ)⌉ : ℤ) : ℚ) := by
      exact_mod_cast le_max_right 0 ⌈W * (R : ℚ) / M - (R : ℚ)⌉
    linarith
  set Dq : ℚ := ((max 0 ⌈W * (R : ℚ) / M - (R : ℚ)⌉ : ℤ) : ℚ) with hDq
  have hdenom : (0 : ℚ) < (R : ℚ) + Dq := by
    linarith
  have hkey : W * (R : ℚ) ≤ M * ((R : ℚ) + Dq) := by
    have hdivle : W * (R : ℚ) / M ≤ (R : ℚ) + Dq := by linarith
    calc W * (R : ℚ) = W * (R : ℚ) / M * M := by field_simp
    _ ≤ ((R : ℚ) + Dq) * M := mul_le_mul_of_nonneg_right hdivle (le_of_lt hM)
    _ = M * ((R : ℚ) + Dq) := mul_comm _ _
  rw [div_mul_eq_mul_div, div_le_iff₀ hdenom]
  linarith

/-- C1.  Payout cap: for every ceiling `M > 0` and winner unit count
`R > 0`, the engine's rounded `payoutToReal` is at most `M` plus the
rounding tolerance of one cent per winner unit, for every prize `W ≥ 0`. -/
theorem payout_cap (W M : ℚ) (R p : ℕ) (hR : 0 < R) (hM : 0 < M) (hW : 0 ≤ W) :
    (announceEngine W M R p).payoutToReal ≤ M + (R : ℚ) / 100 := by
  have hM' : ¬ M ≤ 0 := not_le.mpr hM
  have hraw := raw_payout_le_ceiling W M R hR hM hW
  have hr2 := round2_le_add_half_cent
    (W / ((R : ℚ) + ((max 0 ⌈W * (R : ℚ) / M - (R : ℚ)⌉ : ℤ) : ℚ)) * (R : ℚ))
  have hR1 : (1 : ℚ) ≤ (R : ℚ) := by exact_mod_cast hR
  simp only [announceEngine, if_pos hR, if_neg hM']
  linarith

/-- C1 witness: the cap theorem applied at the spec's worked example. -/
theorem payout_cap_witness :
    0 < 5 ∧ (0 : ℚ) < 850 ∧ (0 : ℚ) ≤ 3300 ∧
    (announceEngine 3300 850 5 20).payoutToReal ≤ 850 + ((5 : ℕ) : ℚ) / 100 :=
  ⟨by norm_num, by norm_num, by norm_num,
    payout_cap 3300 850 5 20 (by norm_num) (by norm_num) (by norm_num)⟩

/-- C6.  Zero-winner property: with no real winner units the engine pays
nothing regardless of the ceiling, the synthesized dummy count is
`ceil(W / p)` for the drawn display value `p` so it lies between
`ceil(W / 50)` and `ceil(W / 20)`, and the announcement leaves every wallet
untouched (no `creditWinning` call is made). -/
theorem zero_winner_property (W M : ℚ) (p : ℕ) (settings : EngineSettings)
    (bids : List LDBid) (n pp : ℕ) (st : SlotState)
    (hW : 0 ≤ W) (hp1 : 20 ≤ p) (hp2 : p ≤ 50)
    (hR : ldR bids n = 0) :
    (announceEngine W M 0 p).payoutToReal = 0 ∧
    (announceEngine W M 0 p).dummyUnits = ⌈W / (p : ℚ)⌉ ∧
    ⌈W / 50⌉ ≤ (announceEngine W M 0 p).dummyUnits ∧
    (announceEngine W M 0 p).dummyUnits ≤ ⌈W / 20⌉ ∧
    (announceResultLD settings bids n pp st).1.wallets = st.wallets := by
  have hp0 : (0 : ℚ) < (p : ℚ) := by
    have : (0 : ℕ) < p := by omega
    exact_mod_cast this
  have hp1' : (20 : ℚ) ≤ (p : ℚ) := by exact_mod_cast hp1
  have hp2' : (p : ℚ) ≤ (50 : ℚ) := by exact_mod_cast hp2
  have hlo : W / 50 ≤ W / (p : ℚ) := by
    apply div_le_div_of_nonneg_left hW hp0 hp2'
  have hhi : W / (p : ℚ) ≤ W / 20 := by
    apply div_le_div_of_nonneg_left hW (by norm_num) hp1'
  have heng : announceEngine W M 0 p =
      ⟨⌈W / (p : ℚ)⌉, round2 (W / ((⌈W / (p : ℚ)⌉ : ℤ) : ℚ)), 0, false⟩ := by
    simp [announceEngine]
  refine ⟨by rw [heng], by rw [heng], ?_, ?_, ?_⟩
  · rw [heng]
    exact Int.ceil_le_ceil hlo
  · rw [heng]
    exact Int.ceil_le_ceil hhi
  · have hcred : announceCredits settings bids n pp st.wallets = (st.wallets, []) := by
      unfold announceCredits
      rw [if_neg]
      intro hcontra
      rw [hR] at hcontra
      exact (lt_irrefl 0) hcontra.1
    unfold announceResultLD
    by_cases h1 : st.status = .COMPLETED
    · rw [if_pos h1]
    · rw [if_neg h1]
      by_cases h2 : st.status = .OPEN ∧ st.windowClosed = false
      · rw [if_pos h2]
      · rw [if_neg h2]
        simp only [hcred]
        by_cases h3 : ([] : List FailedCredit) = []
        · simp
        · exact absurd rfl h3

/-- C6 witness: the zero-winner theorem at `W = 3300`, `p = 37`, with one
losing bid, checking the spec's example bounds 66 and 165. -/
theorem zero_winner_property_witness :
    (0 : ℚ) ≤ 3300 ∧ 20 ≤ 37 ∧ 37 ≤ 50 ∧ ldR [⟨1, 5, 2, 100⟩] 7 = 0 ∧
    ((announceEngine 3300 850 0 37).payoutToReal = 0 ∧
     (announceEngine 3300 850 0 37).dummyUnits = ⌈(3300 : ℚ) / ((37 : ℕ) : ℚ)⌉ ∧
     ⌈(3300 : ℚ) / 50⌉ ≤ (announceEngine 3300 850 0 37).dummyUnits ∧
     (announceEngine 3300 850 0 37).dummyUnits ≤ ⌈(3300 : ℚ) / 20⌉ ∧
     (announceResultLD ⟨0.15, 3300⟩ [⟨1, 5, 2, 100⟩] 7 37
        ⟨.CLOSED, true, [], []⟩).1.wallets = ([] : WalletMap)) :=
  ⟨by norm_num, by norm_num, by norm_num, by simp [ldR, ldWinningBids],
    zero_winner_property 3300 850 37 ⟨0.15, 3300⟩ [⟨1, 5, 2, 100⟩] 7 37
      ⟨.CLOSED, true, [], []⟩ (by norm_num) (by norm_num) (by norm_num)
      (by simp [ldR, ldWinningBids])⟩

/-- C7.  Worked example: `collected = 1000` and `minProfitPct = 0.15` give
ceiling `M = 850`; with `W = 3300` and `R = 5` the engine computes exactly
`D = 15`, unit payout `165.00`, and `payoutToReal = 825.00`. -/
theorem worked_example :
    computeCeiling 1000 (normalizePct 0.15) = 850 ∧
    (announceEngine 3300 850 5 20).dummyUnits = 15 ∧
    (announceEngine 3300 850 5 20).unitPrize = 165 ∧
    (announceEngine 3300 850 5 20).payoutToReal = 825 := by
  have hpct : normalizePct 0.15 = 0.15 := by unfold normalizePct; norm_num
  have h1 : round2 ((1000 : ℚ) * 0.15) = 150 := by
    rw [round2_eval ((1000 : ℚ) * 0.15) 15000 (by norm_num) (by norm_num)]; norm_num
  have h2 : round2 ((1000 : ℚ) - 150) = 850 := by
    rw [round2_eval ((1000 : ℚ) - 150) 85000 (by norm_num) (by norm_num)]; norm_num
  have hceil : ⌈(3300 : ℚ) * (5 : ℕ) / 850 - (5 : ℕ)⌉ = 15 := by
    rw [ceil_eval _ 15 (by norm_num) (by norm_num)]
  have hmax : max (0 : ℤ) 15 = 15 := by norm_num
  have hU : round2 ((3300 : ℚ) / ((5 : ℕ) + ((15 : ℤ) : ℚ))) = 165 := by
    rw [round2_eval _ 16500 (by norm_num) (by norm_num)]; norm_num
  have hP : round2 ((3300 : ℚ) / ((5 : ℕ) + ((15 : ℤ) : ℚ)) * (5 : ℕ)) = 825 := by
    rw [round2_eval _ 82500 (by norm_num) (by norm_num)]; norm_num
  refine ⟨?_, ?_, ?_, ?_⟩
  · unfold computeCeiling
    rw [hpct, h1, h2]
  · simp only [announceEngine, if_pos (by norm_num : 0 < 5), if_neg (by norm_num : ¬ (850:ℚ) ≤ 0)]
    rw [hceil, hmax]
  · simp only [announceEngine, if_pos (by norm_num : 0 < 5), if_neg (by norm_num : ¬ (850:ℚ) ≤ 0)]
    rw [hceil, hmax, hU]
  · simp only [announceEngine, if_pos (by norm_num : 0 < 5), if_neg (by norm_num : ¬ (850:ℚ) ≤ 0)]
    rw [hceil, hmax, hP]

/-- C2.  Announcement atomicity: on a CLOSED slot, whenever the credit
phase reports at least one failed winner credit, `announceResult` ends in
an error carrying exactly the collected failure list, no draw result is
persisted, and the slot stays CLOSED. -/
theorem announce_atomicity (settings : EngineSettings) (bids : List LDBid)
    (n p : ℕ) (st : SlotState) (hst : st.status = .CLOSED)
    (hfs : (announceCredits settings bids n p st.wallets).2 ≠ []) :
    (announceResultLD settings bids n p st).2
      = .error (.creditsFailed (announceCredits settings bids n p st.wallets).2) ∧
    (announceResultLD settings bids n p st).1.draws = st.draws ∧
    (announceResultLD settings bids n p st).1.status = .CLOSED := by
  have h1 : ¬ st.status = SlotStatus.COMPLETED := by
    rw [hst]
    intro h
    cases h
  have h2 : ¬ (st.status = SlotStatus.OPEN ∧ st.windowClosed = false) := by
    rw [hst]
    rintro ⟨h, -⟩
    cases h
  simp only [announceResultLD, if_neg h1, if_neg h2, if_neg hfs]
  exact ⟨trivial, trivial, hst⟩

/-- C3.  Announcement idempotence: after a successful announcement of a
CLOSED slot with no prior draw result, exactly one draw result exists, the
slot is COMPLETED, and any second `announceResult` call is rejected with
the already-announced conflict leaving the state (draws and wallets)
completely unchanged, so winners are never credited twice. -/
theorem announce_idempotence (settings : EngineSettings) (bids : List LDBid)
    (n p : ℕ) (settings2 : EngineSettings) (bids2 : List LDBid) (n2 p2 : ℕ)
    (st : SlotState) (d : DrawResult)
    (hst : st.status = .CLOSED) (hdr : st.draws = [])
    (hok : (announceResultLD settings bids n p st).2 = .ok d) :
    (announceResultLD settings bids n p st).1.draws = [d] ∧
    (announceResultLD settings bids n p st).1.status = .COMPLETED ∧
    announceResultLD settings2 bids2 n2 p2 (announceResultLD settings bids n p st).1
      = ((announceResultLD settings bids n p st).1, .error .slotCompleted) := by
  have h1 : ¬ st.status = SlotStatus.COMPLETED := by
    rw [hst]
    intro h
    cases h
  have h2 : ¬ (st.status = SlotStatus.OPEN ∧ st.windowClosed = false) := by
    rw [hst]
    rintro ⟨h, -⟩
    cases h
  by_cases hfs : (announceCredits settings bids n p st.wallets).2 = []
  · simp only [announceResultLD, if_neg h1, if_neg h2, if_pos hfs] at hok ⊢
    have hd : d = ⟨n,
        (announceEngine settings.winningPrizeLD (ldM settings bids) (ldR bids n) p).dummyUnits,
        (ldR bids n : ℤ) +
          (announceEngine settings.winningPrizeLD (ldM settings bids) (ldR bids n) p).dummyUnits,
        (announceEngine settings.winningPrizeLD (ldM settings bids) (ldR bids n) p).unitPrize,
        (announceEngine settings.winningPrizeLD (ldM settings bids) (ldR bids n) p).payoutToReal⟩ := by
      have := hok
      simp only [Except.ok.injEq] at this
      exact this.symm
    refine ⟨by simp [hdr, hd], trivial, ?_⟩
    simp [announceResultLD]
  · simp only [announceResultLD, if_neg h1, if_neg h2, if_neg hfs] at hok
    cases hok

/-- Ceiling evaluation for the failed-credit scenario: one bid of 100. -/
lemma eval_ldM_fail : ldM ⟨0.15, 3300⟩ [⟨1, 7, 1, 100⟩] = 85 := by
  have hpct : normalizePct 0.15 = 0.15 := by unfold normalizePct; norm_num
  have hc : ldCollected [⟨1, 7, 1, 100⟩] = 100 := by simp [ldCollected]
  have r1 : round2 ((100 : ℚ) * 0.15) = 15 := by
    rw [round2_eval _ 1500 (by norm_num) (by norm_num)]; norm_num
  have r2 : round2 ((100 : ℚ) - 15) = 85 := by
    rw [round2_eval _ 8500 (by norm_num) (by norm_num)]; norm_num
  unfold ldM computeCeiling
  rw [hc, hpct, r1, r2]

/-- Engine evaluation for the failed-credit scenario. -/
lemma eval_engine_fail : announceEngine 3300 85 1 20 = ⟨38, 4231/50, 4231/50, false⟩ := by
  have hceil : ⌈(3300 : ℚ) * (1 : ℕ) / 85 - (1 : ℕ)⌉ = 38 := by
    rw [ceil_eval _ 38 (by norm_num) (by norm_num)]
  have hmax : max (0 : ℤ) 38 = 38 := by norm_num
  have hU : round2 ((3300 : ℚ) / ((1 : ℕ) + ((38 : ℤ) : ℚ))) = 4231 / 50 := by
    rw [round2_eval _ 8462 (by norm_num) (by norm_num)]; norm_num
  have hP : round2 ((3300 : ℚ) / ((1 : ℕ) + ((38 : ℤ) : ℚ)) * (1 : ℕ)) = 4231 / 50 := by
    rw [round2_eval _ 8462 (by norm_num) (by norm_num)]; norm_num
  simp only [announceEngine, if_pos (by norm_num : 0 < 1), if_neg (by norm_num : ¬ (85:ℚ) ≤ 0)]
  rw [hceil, hmax, hU, hP]

/-- Credit-phase evaluation for the failed-credit scenario: the single
winner has no wallet, so the failure list records it. -/
lemma eval_credits_fail :
    announceCredits ⟨0.15, 3300⟩ [⟨1, 7, 1, 100⟩] 7 20 []
      = ([], [⟨1, CreditFailReason.walletNotFound⟩]) := by
  have hR : ldR [⟨1, 7, 1, 100⟩] 7 = 1 := by simp [ldR, ldWinningBids]
  have hwb : ldWinningBids [⟨1, 7, 1, 100⟩] 7 = [⟨1, 7, 1, 100⟩] := by
    simp [ldWinningBids]
  have hraw : ldUnitPrizeRaw 3300 1 38 = (3300 : ℚ) / ((1 : ℕ) + ((38 : ℤ) : ℚ)) := by
    unfold ldUnitPrizeRaw
    rw [if_pos (by norm_num : (0 : ℤ) < (1 : ℕ) + 38)]
  have hpay : round2 ((3300 : ℚ) / ((1 : ℕ) + ((38 : ℤ) : ℚ)) * (1 : ℕ)) = 4231 / 50 := by
    rw [round2_eval _ 8462 (by norm_num) (by norm_num)]; norm_num
  simp only [announceCredits, eval_ldM_fail, hR, eval_engine_fail, hwb]
  rw [if_pos (⟨by norm_num, by norm_num⟩ : 0 < 1 ∧ (0 : ℚ) < 4231 / 50)]
  simp only [creditAll, hraw, hpay]
  rw [if_neg (by norm_num : ¬ (4231 : ℚ) / 50 ≤ 0)]
  simp [creditWinningW, lookupWallet, creditAll]
  norm_num

/-- C2 witness: the atomicity theorem at a concrete CLOSED slot whose only
winner has no wallet. -/
theorem announce_atomicity_witness :
    (⟨SlotStatus.CLOSED, true, [], []⟩ : SlotState).status = SlotStatus.CLOSED ∧
    ((announceResultLD ⟨0.15, 3300⟩ [⟨1, 7, 1, 100⟩] 7 20
        ⟨SlotStatus.CLOSED, true, [], []⟩).2
      = .error (.creditsFailed
          (announceCredits ⟨0.15, 3300⟩ [⟨1, 7, 1, 100⟩] 7 20 []).2) ∧
     (announceResultLD ⟨0.15, 3300⟩ [⟨1, 7, 1, 100⟩] 7 20
        ⟨SlotStatus.CLOSED, true, [], []⟩).1.draws = [] ∧
     (announceResultLD ⟨0.15, 3300⟩ [⟨1, 7, 1, 100⟩] 7 20
        ⟨SlotStatus.CLOSED, true, [], []⟩).1.status = SlotStatus.CLOSED) :=
  ⟨rfl,
    announce_atomicity ⟨0.15, 3300⟩ [⟨1, 7, 1, 100⟩] 7 20
      ⟨SlotStatus.CLOSED, true, [], []⟩ rfl
      (by rw [eval_credits_fail]; intro h; cases h)⟩

/-- Ceiling evaluation for the successful announcement scenario. -/
lemma eval_ldM_ok : ldM ⟨0.15, 100⟩ [⟨1, 7, 1, 1000⟩] = 850 := by
  have hpct : normalizePct 0.15 = 0.15 := by unfold normalizePct; norm_num
  have hc : ldCollected [⟨1, 7, 1, 1000⟩] = 1000 := by simp [ldCollected]
  have r1 : round2 ((1000 : ℚ) * 0.15) = 150 := by
    rw [round2_eval _ 15000 (by norm_num) (by norm_num)]; norm_num
  have r2 : round2 ((1000 : ℚ) - 150) = 850 := by
    rw [round2_eval _ 85000 (by norm_num) (by norm_num)]; norm_num
  unfold ldM computeCeiling
  rw [hc, hpct, r1, r2]

/-- Engine evaluation for the successful announcement scenario. -/
lemma eval_engine_ok : announceEngine 100 850 1 20 = ⟨0, 100, 100, false⟩ := by
  have hceil : ⌈(100 : ℚ) * (1 : ℕ) / 850 - (1 : ℕ)⌉ = 0 := by
    rw [ceil_eval _ 0 (by norm_num) (by norm_num)]
  have hmax : max (0 : ℤ) 0 = 0 := by norm_num
  have hU : round2 ((100 : ℚ) / ((1 : ℕ) + ((0 : ℤ) : ℚ))) = 100 := by
    rw [round2_eval _ 10000 (by norm_num) (by norm_num)]; norm_num
  have hP : round2 ((100 : ℚ) / ((1 : ℕ) + ((0 : ℤ) : ℚ)) * (1 : ℕ)) = 100 := by
    rw [round2_eval _ 10000 (by norm_num) (by norm_num)]; norm_num
  simp only [announceEngine, if_pos (by norm_num : 0 < 1), if_neg (by norm_num : ¬ (850:ℚ) ≤ 0)]
  rw [hceil, hmax, hU, hP]

/-- Credit-phase evaluation for the successful announcement scenario: the
single winner's wallet gets 100 reserved and no failure is recorded. -/
lemma eval_credits_ok :
    announceCredits ⟨0.15, 100⟩ [⟨1, 7, 1, 1000⟩] 7 20 [(1, ⟨0, 0⟩)]
      = ([(1, ⟨0, 100⟩)], []) := by
  have hR : ldR [⟨1, 7, 1, 1000⟩] 7 = 1 := by simp [ldR, ldWinningBids]
  have hwb : ldWinningBids [⟨1, 7, 1, 1000⟩] 7 = [⟨1, 7, 1, 1000⟩] := by
    simp [ldWinningBids]
  have hraw : ldUnitPrizeRaw 100 1 0 = (100 : ℚ) / ((1 : ℕ) + ((0 : ℤ) : ℚ)) := by
    unfold ldUnitPrizeRaw
    rw [if_pos (by norm_num : (0 : ℤ) < (1 : ℕ) + 0)]
  have hpay : round2 ((100 : ℚ) / ((1 : ℕ) + ((0 : ℤ) : ℚ)) * (1 : ℕ)) = 100 := by
    rw [round2_eval _ 10000 (by norm_num) (by norm_num)]; norm_num
  simp only [announceCredits, eval_ldM_ok, hR, eval_engine_ok, hwb]
  rw [if_pos (⟨by norm_num, by norm_num⟩ : 0 < 1 ∧ (0 : ℚ) < 100)]
  simp only [creditAll, hraw, hpay]
  rw [if_neg (by norm_num : ¬ (100 : ℚ) ≤ 0)]
  simp [creditWinningW, lookupWallet, updateWallet, creditAll]
  norm_num

/-- Full evaluation of a successful announcement: the draw is persisted,
the slot transitions to COMPLETED, and the winner's wallet holds the
reserved 100. -/
lemma eval_announce_ok :
    announceResultLD ⟨0.15, 100⟩ [⟨1, 7, 1, 1000⟩] 7 20
        ⟨SlotStatus.CLOSED, true, [(1, ⟨0, 0⟩)], []⟩
      = (⟨SlotStatus.COMPLETED, true, [(1, ⟨0, 100⟩)], [⟨7, 0, 1, 100, 100⟩]⟩,
         .ok ⟨7, 0, 1, 100, 100⟩) := by
  have hR : ldR [⟨1, 7, 1, 1000⟩] 7 = 1 := by simp [ldR, ldWinningBids]
  simp only [announceResultLD, eval_credits_ok, eval_ldM_ok, hR, eval_engine_ok]
  norm_num
  decide

/-- C3 witness: the idempotence theorem at a concrete successful first
announcement followed by a second attempt. -/
theorem announce_idempotence_witness :
    (announceResultLD ⟨0.15, 100⟩ [⟨1, 7, 1, 1000⟩] 7 20
        ⟨SlotStatus.CLOSED, true, [(1, ⟨0, 0⟩)], []⟩).1.draws
      = [⟨7, 0, 1, 100, 100⟩] ∧
    (announceResultLD ⟨0.15, 100⟩ [⟨1, 7, 1, 1000⟩] 7 20
        ⟨SlotStatus.CLOSED, true, [(1, ⟨0, 0⟩)], []⟩).1.status = SlotStatus.COMPLETED ∧
    announceResultLD ⟨0.15, 100⟩ [⟨1, 7, 1, 1000⟩] 7 20
        (announceResultLD ⟨0.15, 100⟩ [⟨1, 7, 1, 1000⟩] 7 20
          ⟨SlotStatus.CLOSED, true, [(1, ⟨0, 0⟩)], []⟩).1
      = ((announceResultLD ⟨0.15, 100⟩ [⟨1, 7, 1, 1000⟩] 7 20
          ⟨SlotStatus.CLOSED, true, [(1, ⟨0, 0⟩)], []⟩).1,
         .error .slotCompleted) :=
  announce_idempotence ⟨0.15, 100⟩ [⟨1, 7, 1, 1000⟩] 7 20
    ⟨0.15, 100⟩ [⟨1, 7, 1, 1000⟩] 7 20
    ⟨SlotStatus.CLOSED, true, [(1, ⟨0, 0⟩)], []⟩ ⟨7, 0, 1, 100, 100⟩
    rfl rfl (by rw [eval_announce_ok])

/-- C8.  `debitForBid`: with a positive amount and an existing wallet, the
call fails with the insufficient-funds error exactly when
`available - amount < -negativeLimit`; failure leaves the state unchanged,
success decreases `totalBalance` by the amount and appends one BID_DEBIT
entry stored with a negative amount.  The spec's concrete example follows:
a debit of 50 at balance 0 with limit 200 succeeds to -50, and a further
debit of 200 then fails. -/
theorem debitForBid_spec (negLimit : ℚ) (w : Wallet) (l : List WalletTx) (a : ℚ)
    (ha : 0 < a) :
    ((stepWallet negLimit ⟨some w, l⟩ (.debitForBid a)).2
        = some .negativeLimitExceeded ↔ computeAvailable w - a < -negLimit) ∧
    (computeAvailable w - a < -negLimit →
      (stepWallet negLimit ⟨some w, l⟩ (.debitForBid a)).1 = ⟨some w, l⟩) ∧
    (¬ computeAvailable w - a < -negLimit →
      stepWallet negLimit ⟨some w, l⟩ (.debitForBid a)
        = (⟨some ⟨w.totalBalance - a, w.reservedWinning⟩,
            l ++ [⟨.BID_DEBIT, -a, w.totalBalance - a, none⟩]⟩, none) ∧ -a < 0) ∧
    (stepWallet 200 ⟨some ⟨0, 0⟩, []⟩ (.debitForBid 50)).1.wallet = some ⟨-50, 0⟩ ∧
    (stepWallet 200 ((stepWallet 200 ⟨some ⟨0, 0⟩, []⟩ (.debitForBid 50)).1)
        (.debitForBid 200)).2 = some .negativeLimitExceeded := by
  have ha' : ¬ a ≤ 0 := not_le.mpr ha
  refine ⟨?_, ?_, ?_, ?_, ?_⟩
  · by_cases hcond : computeAvailable w - a < -negLimit
    · simp [stepWallet, if_neg ha', if_pos hcond, hcond]
    · simp only [stepWallet, if_neg ha', if_neg hcond]
      constructor
      · intro h
        cases h
      · intro h
        exact absurd h hcond
  · intro hcond
    simp [stepWallet, if_neg ha', if_pos hcond]
  · intro hcond
    refine ⟨by simp [stepWallet, if_neg ha', if_neg hcond], by linarith⟩
  · have h1 : ¬ (50 : ℚ) ≤ 0 := by norm_num
    have h2 : ¬ computeAvailable ⟨0, 0⟩ - (50 : ℚ) < -(200 : ℚ) := by
      simp [computeAvailable]
      norm_num
    simp [stepWallet, if_neg h1, if_neg h2]
  · have h1 : ¬ (50 : ℚ) ≤ 0 := by norm_num
    have h2 : ¬ computeAvailable ⟨0, 0⟩ - (50 : ℚ) < -(200 : ℚ) := by
      simp [computeAvailable]
      norm_num
    have hstep : (stepWallet 200 ⟨some ⟨0, 0⟩, []⟩ (.debitForBid 50)).1
        = ⟨some ⟨-50, 0⟩, [⟨.BID_DEBIT, -50, 0 - 50, none⟩]⟩ := by
      simp [stepWallet, if_neg h1, if_neg h2]
    rw [hstep]
    have h3 : ¬ (200 : ℚ) ≤ 0 := by norm_num
    have h4 : computeAvailable ⟨-50, 0⟩ - (200 : ℚ) < -(200 : ℚ) := by
      simp [computeAvailable]
      norm_num
    simp [stepWallet, if_neg h3, if_pos h4]

/-- C8 witness: the debit specification applied at amount 50 on the empty
wallet with limit 200. -/
theorem debitForBid_spec_witness :
    (0 : ℚ) < 50 ∧
    (stepWallet 200 ⟨some ⟨0, 0⟩, []⟩ (.debitForBid 50)).1.wallet = some ⟨-50, 0⟩ :=
  ⟨by norm_num, (debitForBid_spec 200 ⟨0, 0⟩ [] 50 (by norm_num)).2.2.2.1⟩

/-- C9.  `creditWinning` frame: with a positive amount it raises
`reservedWinning` by exactly the amount, leaves `totalBalance` untouched,
and appends one WIN_CREDIT entry; without a wallet it fails with the
wallet-not-found error and changes nothing. -/
theorem creditWinning_frame (negLimit : ℚ) (w : Wallet) (l : List WalletTx) (a : ℚ)
    (ha : 0 < a) :
    stepWallet negLimit ⟨some w, l⟩ (.creditWinning a)
      = (⟨some ⟨w.totalBalance, w.reservedWinning + a⟩,
          l ++ [⟨.WIN_CREDIT, a, w.totalBalance, none⟩]⟩, none) ∧
    stepWallet negLimit ⟨none, l⟩ (.creditWinning a)
      = (⟨none, l⟩, some .walletNotFound) := by
  have ha' : ¬ a ≤ 0 := not_le.mpr ha
  constructor
  · simp [stepWallet, if_neg ha']
  · simp [stepWallet, if_neg ha']

/-- C9 witness: the frame theorem at amount 100 on a wallet with balance 7
and reserve 3. -/
theorem creditWinning_frame_witness :
    (0 : ℚ) < 100 ∧
    stepWallet 200 ⟨some ⟨7, 3⟩, []⟩ (.creditWinning 100)
      = (⟨some ⟨7, 3 + 100⟩, [⟨.WIN_CREDIT, 100, 7, none⟩]⟩, none) :=
  ⟨by norm_num, (creditWinning_frame 200 ⟨7, 3⟩ [] 100 (by norm_num)).1⟩

/-- C10.  Every public wallet-mutating operation taking an amount rejects a
non-positive amount with the validation error before touching any state:
the post state equals the pre state for all eight operations. -/
theorem nonpositive_amount_guard (negLimit : ℚ) (s : LedgerState) (a : ℚ)
    (ha : a ≤ 0) :
    stepWallet negLimit s (.requestBidDeposit a) = (s, some .amountNotPositive) ∧
    stepWallet negLimit s (.debitForBid a) = (s, some .amountNotPositive) ∧
    stepWallet negLimit s (.creditCommission a) = (s, some .amountNotPositive) ∧
    stepWallet negLimit s (.creditWinning a) = (s, some .amountNotPositive) ∧
    stepWallet negLimit s (.settleCommissionByAdmin a) = (s, some .amountNotPositive) ∧
    stepWallet negLimit s (.winningSettlementToAgent a) = (s, some .amountNotPositive) ∧
    stepWallet negLimit s (.winningSettlementToUser a) = (s, some .amountNotPositive) ∧
    stepWallet negLimit s (.adminProcessWithdraw a) = (s, some .amountNotPositive) := by
  refine ⟨?_, ?_, ?_, ?_, ?_, ?_, ?_, ?_⟩ <;> simp [stepWallet, if_pos ha]

/-- C10 witness: the guard theorem at amount 0 on the initial state. -/
theorem nonpositive_amount_guard_witness :
    (0 : ℚ) ≤ 0 ∧
    stepWallet 200 initLedger (.requestBidDeposit 0) = (initLedger, some .amountNotPositive) :=
  ⟨le_refl 0, (nonpositive_amount_guard 200 initLedger 0 (le_refl 0)).1⟩

/-- C4 counterexample: from a fresh wallet, a reachable sequence (deposit
request creating the wallet, then a winner credit of 300 under negative
limit 200) drives the available balance to -300, strictly below the
claimed floor of -200: `creditWinning` raises `reservedWinning` without
any floor check. -/
theorem wallet_floor_cex :
    availableOf (runOps 200 initLedger
      [.requestBidDeposit 5, .creditWinning 300]) = -300 ∧
    ¬ (-(200 : ℚ) ≤ availableOf (runOps 200 initLedger
      [.requestBidDeposit 5, .creditWinning 300])) := by
  have h : runOps 200 initLedger [.requestBidDeposit 5, .creditWinning 300]
      = ⟨some ⟨0, 0 + 300⟩,
          [⟨.BID_CREDIT, 5, 0, some .PENDING⟩, ⟨.WIN_CREDIT, 300, 0, none⟩]⟩ := by
    norm_num [runOps, stepWallet, initLedger]
  rw [h]
  norm_num [availableOf, computeAvailable]

/-- The inductive invariant behind the amended floor property: every
BID_CREDIT row carries a positive amount, and available balance respects
the floor. -/
def floorInv (negLimit : ℚ) (s : LedgerState) : Prop :=
  (∀ tx ∈ s.ledger, tx.txType = .BID_CREDIT → 0 < tx.amount) ∧
  -negLimit ≤ availableOf s

lemma step_preserves_floor (negLimit : ℚ) (hneg : 0 ≤ negLimit)
    (s : LedgerState) (op : WalletOp) (hop : isCreditWinningOp op = false)
    (h : floorInv negLimit s) : floorInv negLimit (stepWallet negLimit s op).1 := by
  obtain ⟨hpos, hfloor⟩ := h
  cases op with
  | requestBidDeposit a =>
      by_cases ha : a ≤ 0
      · simp only [stepWallet, if_pos ha]
        exact ⟨hpos, hfloor⟩
      · simp only [stepWallet, if_neg ha]
        constructor
        · intro tx htx hty
          rcases List.mem_append.mp htx with hmem | hmem
          · exact hpos tx hmem hty
          · rcases List.mem_singleton.mp hmem with rfl
            exact lt_of_not_le ha
        · cases hw : s.wallet with
          | none =>
              simp only [availableOf, hw, Option.getD, computeAvailable] at hfloor ⊢
              simp [computeAvailable]
              linarith
          | some w =>
              simp only [availableOf, hw, Option.getD, computeAvailable] at hfloor ⊢
              exact hfloor
  | approveDeposit idx b =>
      cases hget : s.ledger.get? idx with
      | none =>
          simp only [stepWallet, hget]
          exact ⟨hpos, hfloor⟩
      | some tx =>
          by_cases hty : tx.txType = TxType.BID_CREDIT
          · have hnn : ¬ (tx.txType ≠ TxType.BID_CREDIT) := by simpa using hty
            by_cases hb : b = false
            · simp only [stepWallet, hget, if_neg hnn, if_pos hb]
              constructor
              · intro tx2 htx2 hty2
                rcases List.mem_or_eq_of_mem_set htx2 with hmem | rfl
                · exact hpos tx2 hmem hty2
                · exact hpos tx (List.get?_mem hget) hty
              · simpa [availableOf] using hfloor
            · cases hw : s.wallet with
              | none =>
                  simp only [stepWallet, hget, if_neg hnn, if_neg hb, hw]
                  exact ⟨hpos, by simpa [availableOf, hw] using hfloor⟩
              | some w =>
                  simp only [stepWallet, hget, if_neg hnn, if_neg hb, hw]
                  refine ⟨?_, ?_⟩
                  · intro tx2 htx2 hty2
                    rcases List.mem_or_eq_of_mem_set htx2 with hmem | rfl
                    · exact hpos tx2 hmem hty2
                    · exact hpos tx (List.get?_mem hget) hty
                  · have hamt : 0 < tx.amount := hpos tx (List.get?_mem hget) hty
                    simp only [availableOf, hw, computeAvailable] at hfloor ⊢
                    linarith
          · have hne : tx.txType ≠ TxType.BID_CREDIT := hty
            simp only [stepWallet, hget, if_pos hne]
            exact ⟨hpos, hfloor⟩
  | debitForBid a =>
      by_cases ha : a ≤ 0
      · simp only [stepWallet, if_pos ha]
        exact ⟨hpos, hfloor⟩
      · cases hw : s.wallet with
        | none =>
            simp only [stepWallet, if_neg ha, hw]
            exact ⟨hpos, by simpa [availableOf, hw] using hfloor⟩
        | some w =>
            by_cases hcond : computeAvailable w - a < -negLimit
            · simp only [stepWallet, if_neg ha, hw, if_pos hcond]
              exact ⟨hpos, by simpa [availableOf, hw] using hfloor⟩
            · simp only [stepWallet, if_neg ha, hw, if_neg hcond]
              constructor
              · intro tx htx hty
                rcases List.mem_append.mp htx with hmem | hmem
                · exact hpos tx hmem hty
                · rcases List.mem_singleton.mp hmem with rfl
                  cases hty
              · push_neg at hcond
                simp only [availableOf, computeAvailable] at hcond ⊢
                linarith
  | creditCommission a =>
      by_cases ha : a ≤ 0
      · simp only [stepWallet, if_pos ha]
        exact ⟨hpos, hfloor⟩
      · simp only [stepWallet, if_neg ha]
        constructor
        · intro tx htx hty
          rcases List.mem_append.mp htx with hmem | hmem
          · exact hpos tx hmem hty
          · rcases List.mem_singleton.mp hmem with rfl
            cases hty
        · cases hw : s.wallet with
          | none =>
              simp only [availableOf, hw, Option.getD, computeAvailable] at hfloor ⊢
              simp [computeAvailable]
              linarith [lt_of_not_le ha]
          | some w =>
              simp only [availableOf, hw, Option.getD, computeAvailable] at hfloor ⊢
              simp [computeAvailable]
              have : ¬ a ≤ 0 := ha
              linarith [lt_of_not_le this]
  | creditWinning a =>
      simp [isCreditWinningOp] at hop
  | settleCommissionByAdmin a =>
      by_cases ha : a ≤ 0
      · simp only [stepWallet, if_pos ha]
        exact ⟨hpos, hfloor⟩
      · cases hw : s.wallet with
        | none =>
            simp only [stepWallet, if_neg ha, hw]
            exact ⟨hpos, by simpa [availableOf, hw] using hfloor⟩
        | some w =>
            by_cases hcond : computeAvailable w < a
            · simp only [stepWallet, if_neg ha, hw, if_pos hcond]
              exact ⟨hpos, by simpa [availableOf, hw] using hfloor⟩
            · simp only [stepWallet, if_neg ha, hw, if_neg hcond]
              constructor
              · intro tx htx hty
                rcases List.mem_append.mp htx with hmem | hmem
                · exact hpos tx hmem hty
                · rcases List.mem_singleton.mp hmem with rfl
                  cases hty
              · push_neg at hcond
                simp only [availableOf, computeAvailable] at hcond ⊢
                linarith
  | winningSettlementToAgent a =>
      by_cases ha : a ≤ 0
      · simp only [stepWallet, if_pos ha]
        exact ⟨hpos, hfloor⟩
      · cases hw : s.wallet with
        | none =>
            simp only [stepWallet, if_neg ha, hw]
            exact ⟨hpos, by simpa [availableOf, hw] using hfloor⟩
        | some w =>
            simp only [stepWallet, if_neg ha, hw]
            constructor
            · intro tx htx hty
              rcases List.mem_append.mp htx with hmem | hmem
              · exact hpos tx hmem hty
              · rcases List.mem_singleton.mp hmem with rfl
                cases hty
            · simp only [availableOf, computeAvailable] at hfloor ⊢
              simp only [hw, computeAvailable] at hfloor
              have : ¬ a ≤ 0 := ha
              linarith [lt_of_not_le this]
  | winningSettlementToUser a =>
      by_cases ha : a ≤ 0
      · simp only [stepWallet, if_pos ha]
        exact ⟨hpos, hfloor⟩
      · cases hw : s.wallet with
        | none =>
            simp only [stepWallet, if_neg ha, hw]
            exact ⟨hpos, by simpa [availableOf, hw] using hfloor⟩
        | some w =>
            by_cases hcond : w.reservedWinning < a
            · simp only [stepWallet, if_neg ha, hw, if_pos hcond]
              exact ⟨hpos, by simpa [availableOf, hw] using hfloor⟩
            · simp only [stepWallet, if_neg ha, hw, if_neg hcond]
              constructor
              · intro tx htx hty
                rcases List.mem_append.mp htx with hmem | hmem
                · exact hpos tx hmem hty
                · rcases List.mem_singleton.mp hmem with rfl
                  cases hty
              · simp only [availableOf, hw, computeAvailable] at hfloor ⊢
                linarith
  | adminProcessWithdraw a =>
      by_cases ha : a ≤ 0
      · simp only [stepWallet, if_pos ha]
        exact ⟨hpos, hfloor⟩
      · cases hw : s.wallet with
        | none =>
            simp only [stepWallet, if_neg ha, hw]
            exact ⟨hpos, by simpa [availableOf, hw] using hfloor⟩
        | some w =>
            by_cases hcond : computeAvailable w < a
            · simp only [stepWallet, if_neg ha, hw, if_pos hcond]
              exact ⟨hpos, by simpa [availableOf, hw] using hfloor⟩
            · simp only [stepWallet, if_neg ha, hw, if_neg hcond]
              constructor
              · intro tx htx hty
                rcases List.mem_append.mp htx with hmem | hmem
                · exact hpos tx hmem hty
                · rcases List.mem_singleton.mp hmem with rfl
                  cases hty
              · push_neg at hcond
                simp only [availableOf, computeAvailable] at hcond ⊢
                linarith

lemma runOps_preserves_floor (negLimit : ℚ) (hneg : 0 ≤ negLimit)
    (ops : List WalletOp) (h : ∀ op ∈ ops, isCreditWinningOp op = false)
    (s : LedgerState) (hs : floorInv negLimit s) :
    floorInv negLimit (runOps negLimit s ops) := by
  induction ops generalizing s with
  | nil => exact hs
  | cons op rest ih =>
      exact ih (fun o ho => h o (List.mem_cons_of_mem op ho))
        (stepWallet negLimit s op).1
        (step_preserves_floor negLimit hneg s op (h op (List.mem_cons_self op rest)) hs)

/-- C4 amended.  The computed available balance is by definition
`totalBalance - reservedWinning`, and the floor
`available >= -agentNegativeBalanceLimt` holds in every state reachable by
wallet-ledger operations that do not include `creditWinning` (with a
non-negative configured limit).  `creditWinning` itself carries no floor
check, so the floor is not an invariant of the full operation set — see
the counterexample. -/
theorem wallet_floor_amended (negLimit : ℚ) (hneg : 0 ≤ negLimit)
    (ops : List WalletOp) (h : ∀ op ∈ ops, isCreditWinningOp op = false) :
    (∀ w : Wallet, computeAvailable w = w.totalBalance - w.reservedWinning) ∧
    -negLimit ≤ availableOf (runOps negLimit initLedger ops) := by
  constructor
  · intro w
    rfl
  · have hinit : floorInv negLimit initLedger := by
      constructor
      · intro tx htx hty
        cases htx
      · simpa [availableOf, initLedger] using hneg
    exact (runOps_preserves_floor negLimit hneg ops h initLedger hinit).2

/-- C4 witness: the amended floor theorem on a commission credit followed
by a bid debit under limit 200. -/
theorem wallet_floor_amended_witness :
    (0 : ℚ) ≤ 200 ∧
    ((∀ w : Wallet, computeAvailable w = w.totalBalance - w.reservedWinning) ∧
     -(200 : ℚ) ≤ availableOf (runOps 200 initLedger
        [.creditCommission 50, .debitForBid 120])) :=
  ⟨by norm_num,
    wallet_floor_amended 200 (by norm_num)
      [.creditCommission 50, .debitForBid 120]
      (by intro op hop
          rcases List.mem_cons.mp hop with rfl | hop2
          · rfl
          · rcases List.mem_cons.mp hop2 with rfl | hop3
            · rfl
            · cases hop3)⟩

/-- C5 counterexample: after a commission credit of 50 and a winner
reservation of 20 the plain ledger sum is 70 while `totalBalance` is 50,
with no PENDING deposit in flight: WIN_CREDIT rows carry a positive amount
but never touch the total balance. -/
theorem ledger_reconciliation_cex :
    ledgerSum (runOps 200 initLedger [.creditCommission 50, .creditWinning 20]) = 70 ∧
    totalOf (runOps 200 initLedger [.creditCommission 50, .creditWinning 20]) = 50 ∧
    (∀ tx ∈ (runOps 200 initLedger
        [.creditCommission 50, .creditWinning 20]).ledger,
      tx.status ≠ some .PENDING) ∧
    ledgerSum (runOps 200 initLedger [.creditCommission 50, .creditWinning 20])
      ≠ totalOf (runOps 200 initLedger [.creditCommission 50, .creditWinning 20]) := by
  have h : runOps 200 initLedger [.creditCommission 50, .creditWinning 20]
      = ⟨some ⟨0 + 50, 0 + 20⟩,
          [⟨.COMMISSION_CREDIT, 50, 0 + 50, none⟩, ⟨.WIN_CREDIT, 20, 0 + 50, none⟩]⟩ := by
    norm_num [runOps, stepWallet, initLedger]
  rw [h]
  refine ⟨by norm_num [ledgerSum], by norm_num [totalOf], ?_, by norm_num [ledgerSum, totalOf]⟩
  intro tx htx
  rcases List.mem_cons.mp htx with rfl | htx2
  · intro hc
    cases hc
  · rcases List.mem_cons.mp htx2 with rfl | htx3
    · intro hc
      cases hc
    · cases htx3

lemma map_sum_set (f : WalletTx → ℚ) :
    ∀ (l : List WalletTx) (idx : ℕ) (tx tx2 : WalletTx),
      l.get? idx = some tx →
      ((l.set idx tx2).map f).sum = (l.map f).sum - f tx + f tx2 := by
  intro l
  induction l with
  | nil =>
      intro idx tx tx2 h
      cases h
  | cons hd tl ih =>
      intro idx tx tx2 h
      cases idx with
      | zero =>
          simp only [List.get?] at h
          cases h
          simp [List.set]
          ring
      | succ n =>
          simp only [List.get?] at h
          have := ih n tx tx2 h
          simp only [List.set, List.map_cons, List.sum_cons, this]
          ring

lemma step_preserves_eff (negLimit : ℚ) (s : LedgerState) (op : WalletOp)
    (hop : approvalOk s op) (h : effSum s = totalOf s) :
    effSum (stepWallet negLimit s op).1 = totalOf (stepWallet negLimit s op).1 := by
  cases op with
  | requestBidDeposit a =>
      by_cases ha : a ≤ 0
      · simpa only [stepWallet, if_pos ha] using h
      · cases hw : s.wallet with
        | none =>
            simp only [stepWallet, if_neg ha, hw] at h ⊢
            simp only [effSum, totalOf, ledgerSum, List.map_append, List.sum_append,
              effAmount] at h ⊢
            simp only [availableOf, hw] at h ⊢
            simp [effAmount] at h ⊢
            simpa [totalOf, hw] using h
        | some w =>
            simp only [stepWallet, if_neg ha, hw] at h ⊢
            simp only [effSum, totalOf, List.map_append, List.sum_append] at h ⊢
            simp only [totalOf, hw] at h
            simp [effAmount]
            simpa using h
  | approveDeposit idx b =>
      cases hget : s.ledger.get? idx with
      | none => simpa only [stepWallet, hget] using h
      | some tx =>
          by_cases hty : tx.txType = TxType.BID_CREDIT
          · have hnn : ¬ (tx.txType ≠ TxType.BID_CREDIT) := by simpa using hty
            have hstat : tx.status ≠ some DepStatus.APPROVED := hop tx hget
            have hefftx : effAmount tx = 0 := by
              unfold effAmount
              rw [if_neg (by rw [hty]; intro hc; cases hc)]
              rw [if_pos ⟨hty, hstat⟩]
            by_cases hb : b = false
            · simp only [stepWallet, hget, if_neg hnn, if_pos hb]
              have hset := map_sum_set effAmount s.ledger idx tx
                { tx with status := some .DECLINED } hget
              simp only [effSum, totalOf] at h ⊢
              rw [hset, hefftx]
              have heffnew : effAmount { tx with status := some .DECLINED } = 0 := by
                unfold effAmount
                rw [if_neg (by rw [hty]; intro hc; cases hc)]
                rw [if_pos ⟨hty, by intro hc; cases hc⟩]
              rw [heffnew]
              simpa using h
            · cases hw : s.wallet with
              | none => simpa only [stepWallet, hget, if_neg hnn, if_neg hb, hw] using h
              | some w =>
                  simp only [stepWallet, hget, if_neg hnn, if_neg hb, hw]
                  have hset := map_sum_set effAmount s.ledger idx tx
                    { tx with balanceAfter := w.totalBalance + tx.amount,
                              status := some .APPROVED } hget
                  simp only [effSum, totalOf] at h ⊢
                  rw [hset, hefftx]
                  have heffnew : effAmount { tx with
                      balanceAfter := w.totalBalance + tx.amount,
                      status := some .APPROVED } = tx.amount := by
                    unfold effAmount
                    rw [if_neg (by rw [hty]; intro hc; cases hc)]
                    rw [if_neg]
                    intro hc
                    exact hc.2 rfl
                  rw [heffnew]
                  simp only [totalOf, hw] at h
                  simp
                  linarith
          · have hne : tx.txType ≠ TxType.BID_CREDIT := hty
            simpa only [stepWallet, hget, if_pos hne] using h
  | debitForBid a =>
      by_cases ha : a ≤ 0
      · simpa only [stepWallet, if_pos ha] using h
      · cases hw : s.wallet with
        | none => simpa only [stepWallet, if_neg ha, hw] using h
        | some w =>
            by_cases hcond : computeAvailable w - a < -negLimit
            · simpa only [stepWallet, if_neg ha, hw, if_pos hcond] using h
            · simp only [stepWallet, if_neg ha, hw, if_neg hcond]
              simp only [effSum, totalOf, List.map_append, List.sum_append] at h ⊢
              simp only [totalOf, hw] at h
              simp [effAmount]
              linarith
  | creditCommission a =>
      by_cases ha : a ≤ 0
      · simpa only [stepWallet, if_pos ha] using h
      · cases hw : s.wallet with
        | none =>
            simp only [stepWallet, if_neg ha, hw]
            simp only [effSum, totalOf, List.map_append, List.sum_append] at h ⊢
            simp only [totalOf, hw] at h
            simp [effAmount]
            linarith
        | some w =>
            simp only [stepWallet, if_neg ha, hw]
            simp only [effSum, totalOf, List.map_append, List.sum_append] at h ⊢
            simp only [totalOf, hw] at h
            simp [effAmount]
            linarith
  | creditWinning a =>
      by_cases ha : a ≤ 0
      · simpa only [stepWallet, if_pos ha] using h
      · cases hw : s.wallet with
        | none => simpa only [stepWallet, if_neg ha, hw] using h
        | some w =>
            simp only [stepWallet, if_neg ha, hw]
            simp only [effSum, totalOf, List.map_append, List.sum_append] at h ⊢
            simp only [totalOf, hw] at h
            simp [effAmount]
            linarith
  | settleCommissionByAdmin a =>
      by_cases ha : a ≤ 0
      · simpa only [stepWallet, if_pos ha] using h
      · cases hw : s.wallet with
        | none => simpa only [stepWallet, if_neg ha, hw] using h
        | some w =>
            by_cases hcond : computeAvailable w < a
            · simpa only [stepWallet, if_neg ha, hw, if_pos hcond] using h
            · simp only [stepWallet, if_neg ha, hw, if_neg hcond]
              simp only [effSum, totalOf, List.map_append, List.sum_append] at h ⊢
              simp only [totalOf, hw] at h
              simp [effAmount]
              linarith
  | winningSettlementToAgent a =>
      by_cases ha : a ≤ 0
      · simpa only [stepWallet, if_pos ha] using h
      · cases hw : s.wallet with
        | none => simpa only [stepWallet, if_neg ha, hw] using h
        | some w =>
            simp only [stepWallet, if_neg ha, hw]
            simp only [effSum, totalOf, List.map_append, List.sum_append] at h ⊢
            simp only [totalOf, hw] at h
            simp [effAmount]
            linarith
  | winningSettlementToUser a =>
      by_cases ha : a ≤ 0
      · simpa only [stepWallet, if_pos ha] using h
      · cases hw : s.wallet with
        | none => simpa only [stepWallet, if_neg ha, hw] using h
        | some w =>
            by_cases hcond : w.reservedWinning < a
            · simpa only [stepWallet, if_neg ha, hw, if_pos hcond] using h
            · simp only [stepWallet, if_neg ha, hw, if_neg hcond]
              simp only [effSum, totalOf, List.map_append, List.sum_append] at h ⊢
              simp only [totalOf, hw] at h
              simp [effAmount]
              linarith
  | adminProcessWithdraw a =>
      by_cases ha : a ≤ 0
      · simpa only [stepWallet, if_pos ha] using h
      · cases hw : s.wallet with
        | none => simpa only [stepWallet, if_neg ha, hw] using h
        | some w =>
            by_cases hcond : computeAvailable w < a
            · simpa only [stepWallet, if_neg ha, hw, if_pos hcond] using h
            · simp only [stepWallet, if_neg ha, hw, if_neg hcond]
              simp only [effSum, totalOf, List.map_append, List.sum_append] at h ⊢
              simp only [totalOf, hw] at h
              simp [effAmount]
              linarith

/-- C5 amended.  The ledger reconciles with `totalBalance` once entries are
counted by their balance effect: BID_CREDIT deposit rows count only while
APPROVED (PENDING and DECLINED rows have zero balance effect by design)
and WIN_CREDIT reservation rows never count (they track `reservedWinning`,
not `totalBalance`); under that accounting the effective ledger sum equals
`totalBalance` in every reachable state whose deposit approvals never
re-target an already APPROVED row. -/
theorem ledger_reconciliation_amended (negLimit : ℚ) (s : LedgerState)
    (h : ReachOk negLimit s) : effSum s = totalOf s := by
  induction h with
  | init => simp [effSum, totalOf, initLedger]
  | step s op hre hok ih => exact step_preserves_eff negLimit s op hok ih

/-- C5 witness: the reconciliation theorem on the state reached by a single
commission credit. -/
theorem ledger_reconciliation_amended_witness :
    effSum (stepWallet 200 initLedger (.creditCommission 50)).1
      = totalOf (stepWallet 200 initLedger (.creditCommission 50)).1 :=
  ledger_reconciliation_amended 200 (stepWallet 200 initLedger (.creditCommission 50)).1
    (ReachOk.step initLedger (.creditCommission 50) ReachOk.init trivial)
